import Mathlib

/-!
# Verification of the brace-expansion, zig-zag matrix and CSS-selector katas

Shallow embedding of `src/task/10-katas-1-tasks.js` (`expandBraces`,
`getZigZagMatrix`) and `src/task/08-objects-tasks.js` (`CssSelector`,
`cssSelectorBuilder`), with theorems settling the specification claims.

Strings are modelled as `List Char` internally (JavaScript strings are
sequences of characters; all inputs here are ASCII), with `String`-level
wrappers at the boundary.
-/

namespace Katas

/-- The character `{` (written via its code point to keep source braces out
of character literals). -/
def obrace : Char := Char.ofNat 123

/-- The character `}` (written via its code point). -/
def cbrace : Char := Char.ofNat 125

/-- Scan for the first `{` in the string: returns the literal prefix before
it and the rest after it.  Embeds the outer `while` loop of `expand`
(10-katas-1-tasks.js lines 88-119) up to the point where `s[i] === '{'`
first holds; `none` means the loop ran off the end (line 121's base case). -/
def splitAtBrace : List Char → Option (List Char × List Char)
  | [] => none
  | c :: rest =>
    if c = obrace then some ([], rest)
    else
      match splitAtBrace rest with
      | some (p, r) => some (c :: p, r)
      | none => none

/-- Scan forward from just after an opening `{` with the given nesting
`level`, consuming characters until the level returns to zero.  Returns the
group's inner content (without the closing `}`) and the suffix after it.
Embeds the inner `while` loop of `expand` (lines 94-98); `none` is the
`level !== 0` throw at line 100. -/
def scanGroup : List Char → Nat → Option (List Char × List Char)
  | [], _ => none
  | c :: rest, level =>
    let level' := if c = obrace then level + 1 else if c = cbrace then level - 1 else level
    if level' = 0 then some ([], rest)
    else
      match scanGroup rest level' with
      | some (inner, suffix) => some (c :: inner, suffix)
      | none => none

/-- The brace-level delta of one character in `splitCommaSafe`'s scan
(lines 134-135). -/
def braceDelta (c : Char) : Int :=
  if c = obrace then 1 else if c = cbrace then -1 else 0

/-- The loop of `splitCommaSafe` (lines 129-138): `level` is `braceLevel`,
`current` the accumulated characters of the alternative being built. -/
def sccGo (level : Int) (current : List Char) : List Char → List (List Char)
  | [] => [current]
  | c :: rest =>
    if c = ',' ∧ level = 0 then current :: sccGo 0 [] rest
    else sccGo (level + braceDelta c) (current ++ [c]) rest

/-- `splitCommaSafe` (lines 124-141): split a brace group's inner content
at the commas that occur at brace level 0. -/
def splitCommaSafe (s : List Char) : List (List Char) :=
  sccGo 0 [] s

/-- The recursive `expand` helper (lines 84-122), with an explicit fuel
argument standing in for the structural termination measure: the recursive
call is on the suffix after a consumed `{...}` group, which is strictly
shorter than the input, so `fuel = s.length + 1` (as supplied by `expand`)
always suffices and the `fuel = 0` branch is unreachable from `expand`. -/
def expandGo : Nat → List Char → Except String (List (List Char))
  | 0, _ => .error "Unbalanced braces"
  | fuel + 1, s =>
    match splitAtBrace s with
    | none => .ok [s]
    | some (pre, rest) =>
      match scanGroup rest 1 with
      | none => .error "Unbalanced braces"
      | some (inner, suffix) =>
        match expandGo fuel suffix with
        | .error e => .error e
        | .ok tails =>
          .ok ((splitCommaSafe inner).flatMap fun v => tails.map fun t => pre ++ v ++ t)

/-- `expand` (lines 84-122). -/
def expand (s : List Char) : Except String (List (List Char)) :=
  expandGo (s.length + 1) s

/-- The generator's deduplication loop (lines 143-149): `seen` is the `Set`
of already-yielded values; a value is yielded only on first occurrence. -/
def dedupFirst (seen : List (List Char)) : List (List Char) → List (List Char)
  | [] => []
  | v :: rest =>
    if v ∈ seen then dedupFirst seen rest
    else v :: dedupFirst (v :: seen) rest

/-- `expandBraces` (lines 83-150): the full raw expansion, deduplicated by
first occurrence.  A fresh empty `seen` set is created on every call. -/
def expandBraces (s : List Char) : Except String (List (List Char)) :=
  (expand s).map (dedupFirst [])

/-- `expandBraces` at the `String` boundary. -/
def expandBracesS (s : String) : Except String (List String) :=
  (expandBraces s.data).map (List.map fun cs => String.mk cs)

/-- Specification predicate: rejoin split alternatives with commas.  Used to
state that `splitCommaSafe` loses no text. -/
def joinComma : List (List Char) → List Char
  | [] => []
  | [p] => p
  | p :: q :: ps => p ++ ',' :: joinComma (q :: ps)

/-- Specification predicate: the running brace level after scanning `cs`
starting from `lvl`, with the same per-character deltas as
`splitCommaSafe`. -/
def levelAfter : Int → List Char → Int
  | lvl, [] => lvl
  | lvl, c :: rest => levelAfter (lvl + braceDelta c) rest

/-- Specification predicate: `cs` contains a comma at running brace level 0
when scanned from `lvl`. -/
def hasTopCommaFrom : Int → List Char → Bool
  | _, [] => false
  | lvl, c :: rest =>
    if c = ',' ∧ lvl = 0 then true else hasTopCommaFrom (lvl + braceDelta c) rest

/-- Specification-side deduplication, written from the claim's words: keep
each value at its first occurrence, drop the later duplicates, preserve the
relative order of everything else. -/
def firstDedup : List (List Char) → List (List Char)
  | [] => []
  | v :: rest => v :: (firstDedup rest).filter fun w => w ≠ v

end Katas

namespace Css

/-- The message of `checkOrder`'s error (08-objects-tasks.js lines 134-136). -/
def orderMsg : String :=
  "Selector parts should be arranged in the following order: element, id, class, attribute, pseudo-class, pseudo-element"

/-- The message of `checkUnique`'s error (lines 143-145), with the source's
own spelling. -/
def uniqueMsg : String :=
  "Element, id and pseudo-element should not occur more then one time inside the selector"

/-- The state of a `CssSelector` (lines 113-122): the accumulated string,
the order category last applied, and the three one-shot flags.  The JS
methods mutate the receiver and return a clone carrying the same values;
for a linearly used chain (each returned object extended once) this is
exactly functional state threading, which is how it is modelled here. -/
structure CssSelector where
  result : String
  order : Nat
  usedElement : Bool
  usedId : Bool
  usedPseudoElement : Bool
deriving DecidableEq

/-- `new CssSelector()` (lines 114-122). -/
def initSelector : CssSelector :=
  { result := "", order := 0, usedElement := false, usedId := false, usedPseudoElement := false }

/-- The keys of the `used` record (lines 117-121). -/
inductive UniqueKind where
  | element
  | id
  | pseudoElement
deriving DecidableEq

/-- Read `this.used[type]`. -/
def getUsed (s : CssSelector) : UniqueKind → Bool
  | .element => s.usedElement
  | .id => s.usedId
  | .pseudoElement => s.usedPseudoElement

/-- Write `this.used[type] = true`. -/
def setUsed (s : CssSelector) : UniqueKind → CssSelector
  | .element => { s with usedElement := true }
  | .id => { s with usedId := true }
  | .pseudoElement => { s with usedPseudoElement := true }

/-- `checkOrder` (lines 132-139): reject a part whose category is below the
chain's current one, otherwise record the new category. -/
def checkOrder (s : CssSelector) (current : Nat) : Except String CssSelector :=
  if current < s.order then .error orderMsg
  else .ok { s with order := current }

/-- `checkUnique` (lines 141-148): reject a second occurrence of a one-shot
part, otherwise record the use. -/
def checkUnique (s : CssSelector) (t : UniqueKind) : Except String CssSelector :=
  if getUsed s t then .error uniqueMsg
  else .ok (setUsed s t)

/-- `element(value)` (lines 150-156). -/
def element (s : CssSelector) (value : String) : Except String CssSelector :=
  match checkOrder s 1 with
  | .error e => .error e
  | .ok s1 =>
    match checkUnique s1 .element with
    | .error e => .error e
    | .ok s2 => .ok { s2 with result := s2.result ++ value }

/-- `id(value)` (lines 158-164). -/
def id (s : CssSelector) (value : String) : Except String CssSelector :=
  match checkOrder s 2 with
  | .error e => .error e
  | .ok s1 =>
    match checkUnique s1 .id with
    | .error e => .error e
    | .ok s2 => .ok { s2 with result := s2.result ++ "#" ++ value }

/-- `class(value)` (lines 166-171; `class` is reserved in Lean). -/
def classSel (s : CssSelector) (value : String) : Except String CssSelector :=
  match checkOrder s 3 with
  | .error e => .error e
  | .ok s1 => .ok { s1 with result := s1.result ++ "." ++ value }

/-- `attr(value)` (lines 173-178). -/
def attr (s : CssSelector) (value : String) : Except String CssSelector :=
  match checkOrder s 4 with
  | .error e => .error e
  | .ok s1 => .ok { s1 with result := s1.result ++ "[" ++ value ++ "]" }

/-- `pseudoClass(value)` (lines 180-185). -/
def pseudoClass (s : CssSelector) (value : String) : Except String CssSelector :=
  match checkOrder s 5 with
  | .error e => .error e
  | .ok s1 => .ok { s1 with result := s1.result ++ ":" ++ value }

/-- `pseudoElement(value)` (lines 187-193). -/
def pseudoElement (s : CssSelector) (value : String) : Except String CssSelector :=
  match checkOrder s 6 with
  | .error e => .error e
  | .ok s1 =>
    match checkUnique s1 .pseudoElement with
    | .error e => .error e
    | .ok s2 => .ok { s2 with result := s2.result ++ "::" ++ value }

/-- One step of a builder chain: which method is invoked, with its
argument. -/
inductive Part where
  | element (v : String)
  | id (v : String)
  | classSel (v : String)
  | attr (v : String)
  | pseudoClass (v : String)
  | pseudoElement (v : String)
deriving DecidableEq

/-- Dispatch one chain step to the corresponding method. -/
def applyPart (s : CssSelector) : Part → Except String CssSelector
  | .element v => element s v
  | .id v => id s v
  | .classSel v => classSel s v
  | .attr v => attr s v
  | .pseudoClass v => pseudoClass s v
  | .pseudoElement v => pseudoElement s v

/-- Run a builder chain left to right, stopping at the first thrown error.
A chain built from `cssSelectorBuilder` is `runChain initSelector ps`,
since every facade method starts from `new CssSelector()` (lines 200-223). -/
def runChain (s : CssSelector) : List Part → Except String CssSelector
  | [] => .ok s
  | p :: ps =>
    match applyPart s p with
    | .error e => .error e
    | .ok s' => runChain s' ps

/-- Does the chain invoke `element`? -/
def containsElement : List Part → Bool
  | [] => false
  | .element _ :: _ => true
  | _ :: ps => containsElement ps

/-- Does the chain invoke `id`? -/
def containsId : List Part → Bool
  | [] => false
  | .id _ :: _ => true
  | _ :: ps => containsId ps

/-- Does the chain invoke `pseudoElement`? -/
def containsPseudoElement : List Part → Bool
  | [] => false
  | .pseudoElement _ :: _ => true
  | _ :: ps => containsPseudoElement ps

end Css

namespace ZigZag

/-- One step of the zigzag cursor update in `getZigZagMatrix`
(10-katas-1-tasks.js lines 185-193).  The source performs two sequential
conditional updates per parity (`if (j + 1 < n) j++; else i += 2;` followed
by `if (i > 0) i--;`, and symmetrically); here the trailing conditional
decrement is written out in each branch of the leading conditional, which
executes the identical updates on every path. -/
def zigzagStep (n : Nat) : Nat × Nat → Nat × Nat
  | (i, j) =>
    if (i + j) % 2 = 0 then
      if j + 1 < n then
        if 0 < i then (i - 1, j + 1) else (i, j + 1)
      else
        if 0 < i + 2 then (i + 2 - 1, j) else (i + 2, j)
    else
      if i + 1 < n then
        if 0 < j then (i + 1, j - 1) else (i + 1, j)
      else
        if 0 < j + 2 then (i, j + 2 - 1) else (i, j + 2)

/-- `result[i][j] = v` on a list-of-rows matrix (line 184).  Out-of-range
writes are dropped; the verification shows the cursor never leaves the
grid, so this models the source's always-in-range assignments exactly. -/
def setMat (m : List (List Nat)) (i j v : Nat) : List (List Nat) :=
  m.set i ((m.getD i []).set j v)

/-- Read entry `(i, j)` of a list-of-rows matrix (0 outside the range). -/
def getMat (m : List (List Nat)) (i j : Nat) : Nat :=
  (m.getD i []).getD j 0

/-- The `for (num …)` loop of `getZigZagMatrix` (lines 183-194), with the
trip count `n * n` as explicit fuel: write `num` at the cursor, advance the
cursor, continue. -/
def zigzagLoop (n : Nat) : Nat → Nat → Nat × Nat → List (List Nat) → List (List Nat)
  | 0, _, _, m => m
  | fuel + 1, num, p, m => zigzagLoop n fuel (num + 1) (zigzagStep n p) (setMat m p.1 p.2 num)

/-- `getZigZagMatrix` (lines 180-196): run the loop `n * n` times from the
origin on an `n`-by-`n` zero matrix. -/
def getZigZagMatrix (n : Nat) : List (List Nat) :=
  zigzagLoop n (n * n) 0 (0, 0) (List.replicate n (List.replicate n 0))

/-- Specification predicate: the cursor is inside the `n`-by-`n` grid. -/
def inGrid (n : Nat) : Nat × Nat → Prop
  | (i, j) => i < n ∧ j < n

/-- Specification predicate: the number of cells on anti-diagonal `d` of an
`n`-by-`n` grid. -/
def diagLen (n d : Nat) : Nat :=
  min (d + 1) (2 * n - 1 - d)

/-- Specification predicate: the number of cells on the anti-diagonals
before diagonal `d`. -/
def T (n : Nat) : Nat → Nat
  | 0 => 0
  | d + 1 => T n d + diagLen n d

/-- Specification predicate: position of a cell within its anti-diagonal in
zigzag traversal order (even diagonals are walked upwards, odd ones
downwards). -/
def offset (n : Nat) : Nat × Nat → Nat
  | (i, j) =>
    if (i + j) % 2 = 0 then min (i + j) (n - 1) - i
    else i - (i + j - min (i + j) (n - 1))

/-- Specification predicate: the zigzag visiting index of a cell. -/
def rank (n : Nat) : Nat × Nat → Nat
  | (i, j) => T n (i + j) + offset n (i, j)

/-- The cursor position after `k` steps of the walk from the origin. -/
def walkPos (n : Nat) : Nat → Nat × Nat
  | 0 => (0, 0)
  | k + 1 => zigzagStep n (walkPos n k)

/-- Iterate the cursor update `t` times from an arbitrary start. -/
def stepIter (n : Nat) : Nat → Nat × Nat → Nat × Nat
  | 0, p => p
  | t + 1, p => stepIter n t (zigzagStep n p)

/-- Specification predicate: `m` is an `n`-by-`n` matrix. -/
def Shaped (n : Nat) (m : List (List Nat)) : Prop :=
  m.length = n ∧ ∀ i < n, (m.getD i []).length = n

end ZigZag

namespace Katas

theorem splitAtBrace_length {s p r : List Char} (h : splitAtBrace s = some (p, r)) :
    s.length = p.length + 1 + r.length := by
  induction s generalizing p with
  | nil => simp [splitAtBrace] at h
  | cons c rest ih =>
    rw [splitAtBrace] at h
    split at h
    · cases h; simp; omega
    · cases hr : splitAtBrace rest with
      | none => rw [hr] at h; cases h
      | some pr =>
        rw [hr] at h
        cases h
        have := @ih pr.1 (by rw [hr])
        simp [this]; omega

theorem scanGroup_length {s inner suffix : List Char} {lvl : Nat}
    (h : scanGroup s lvl = some (inner, suffix)) :
    s.length = inner.length + 1 + suffix.length := by
  induction s generalizing inner lvl with
  | nil => simp [scanGroup] at h
  | cons c rest ih =>
    simp only [scanGroup] at h
    generalize hL : (if c = obrace then lvl + 1 else if c = cbrace then lvl - 1 else lvl) = L at h
    split at h
    · cases h; simp; omega
    · cases hr : scanGroup rest L with
      | none => rw [hr] at h; cases h
      | some pr =>
        rw [hr] at h
        cases h
        have := @ih pr.1 L hr
        simp [this]; omega

/-- The fuel in `expandGo` is irrelevant as soon as it exceeds the input
length, so `expand`'s choice `s.length + 1` faithfully realises the
source's recursion on the (strictly shorter) suffix. -/
theorem expandGo_fuel_irrelevant :
    ∀ fuel fuel' : Nat, ∀ s : List Char, s.length < fuel → s.length < fuel' →
      expandGo fuel s = expandGo fuel' s := by
  intro fuel
  induction fuel with
  | zero => intro fuel' s h; omega
  | succ f ih =>
    intro fuel' s h h'
    cases fuel' with
    | zero => omega
    | succ f' =>
      cases hb : splitAtBrace s with
      | none => simp only [expandGo, hb]
      | some pr =>
        obtain ⟨pre, rest⟩ := pr
        have hlen := splitAtBrace_length hb
        cases hg : scanGroup rest 1 with
        | none => simp only [expandGo, hb, hg]
        | some pr' =>
          obtain ⟨inner, suffix⟩ := pr'
          have hlen' := scanGroup_length hg
          simp only [expandGo, hb, hg]
          rw [ih f' suffix (by omega) (by omega)]

theorem splitAtBrace_eq_none {s : List Char} (h : obrace ∉ s) :
    splitAtBrace s = none := by
  induction s with
  | nil => rfl
  | cons c rest ih =>
    simp only [List.mem_cons, not_or] at h
    have hc : ¬ c = obrace := fun hc => h.1 hc.symm
    rw [splitAtBrace, if_neg hc, ih h.2]

theorem expand_of_no_brace {s : List Char} (h : obrace ∉ s) :
    expand s = .ok [s] := by
  rw [expand, expandGo, splitAtBrace_eq_none h]

/-- **C6** (confirmed): for every input string with no opening brace
(including the empty string and strings containing a stray closing brace),
`expandBraces` succeeds and yields exactly the one-element sequence
containing the input unchanged. -/
theorem c6_no_open_brace_identity (s : String) (h : obrace ∉ s.data) :
    expandBracesS s = .ok [s] := by
  rw [expandBracesS, expandBraces, expand_of_no_brace h]
  rfl

theorem c6_no_open_brace_identity_witness :
    obrace ∉ "nothing to do".data ∧ expandBracesS "nothing to do" = .ok ["nothing to do"] :=
  ⟨by decide, c6_no_open_brace_identity "nothing to do" (by decide)⟩

theorem sccGo_ne_nil (rest : List Char) : ∀ level current, sccGo level current rest ≠ [] := by
  induction rest with
  | nil => intro level current; simp [sccGo]
  | cons c rest ih =>
    intro level current
    rw [sccGo]
    split
    · simp
    · exact ih _ _

theorem joinComma_cons {p : List Char} {ps : List (List Char)} (h : ps ≠ []) :
    joinComma (p :: ps) = p ++ ',' :: joinComma ps := by
  cases ps with
  | nil => exact absurd rfl h
  | cons q ps => rfl

theorem joinComma_sccGo (rest : List Char) :
    ∀ level current, joinComma (sccGo level current rest) = current ++ rest := by
  induction rest with
  | nil => intro level current; simp [sccGo, joinComma]
  | cons c rest ih =>
    intro level current
    rw [sccGo]
    split
    · rename_i hc
      rw [joinComma_cons (sccGo_ne_nil rest 0 []), ih 0 []]
      simp [hc.1]
    · rw [ih]
      simp

theorem levelAfter_append (xs ys : List Char) :
    ∀ l, levelAfter l (xs ++ ys) = levelAfter (levelAfter l xs) ys := by
  induction xs with
  | nil => intro l; rfl
  | cons c xs ih =>
    intro l
    simp only [List.cons_append, levelAfter]
    exact ih _

theorem hasTopCommaFrom_append (xs ys : List Char) :
    ∀ l, hasTopCommaFrom l (xs ++ ys) =
      (hasTopCommaFrom l xs || hasTopCommaFrom (levelAfter l xs) ys) := by
  induction xs with
  | nil => intro l; rfl
  | cons c xs ih =>
    intro l
    simp only [List.cons_append, hasTopCommaFrom, levelAfter]
    split
    · simp
    · exact ih _

theorem sccGo_no_top_comma (rest : List Char) :
    ∀ level current, hasTopCommaFrom 0 current = false → levelAfter 0 current = level →
      ∀ p ∈ sccGo level current rest, hasTopCommaFrom 0 p = false := by
  induction rest with
  | nil =>
    intro level current hcur _ p hp
    simp only [sccGo, List.mem_singleton] at hp
    exact hp ▸ hcur
  | cons c rest ih =>
    intro level current hcur hlev p hp
    rw [sccGo] at hp
    split at hp
    · rcases List.mem_cons.mp hp with rfl | hp'
      · exact hcur
      · exact ih 0 [] rfl rfl p hp'
    · rename_i hc
      refine ih _ (current ++ [c]) ?_ ?_ p hp
      · rw [hasTopCommaFrom_append, hcur, hlev]
        simp only [Bool.false_or, hasTopCommaFrom]
        rw [if_neg hc]
      · rw [levelAfter_append, hlev]
        rfl

theorem sccGo_prefix_level (rest : List Char) :
    ∀ level current, levelAfter 0 current = level →
      ∀ i, i + 1 < (sccGo level current rest).length →
        levelAfter 0 (joinComma (List.take (i + 1) (sccGo level current rest))) = 0 := by
  induction rest with
  | nil =>
    intro level current _ i hi
    simp [sccGo] at hi
  | cons c rest ih =>
    intro level current hlev i hi
    rw [sccGo] at hi ⊢
    by_cases hc : c = ',' ∧ level = 0
    · rw [if_pos hc] at hi ⊢
      cases i with
      | zero =>
        simp only [List.take_succ_cons, List.take_zero]
        show levelAfter 0 (joinComma [current]) = 0
        rw [show joinComma [current] = current from rfl, hlev]
        exact hc.2
      | succ i' =>
        simp only [List.length_cons] at hi
        have hlen : i' + 1 < (sccGo 0 [] rest).length := by omega
        simp only [List.take_succ_cons]
        have hne : List.take (i' + 1) (sccGo 0 [] rest) ≠ [] := by
          intro h
          have hl := congrArg List.length h
          rw [List.length_take] at hl
          simp only [List.length_nil] at hl
          omega
        rw [joinComma_cons hne, levelAfter_append, hlev, hc.2]
        show levelAfter (0 + braceDelta ',') (joinComma (List.take (i' + 1) (sccGo 0 [] rest))) = 0
        rw [show (0 : Int) + braceDelta ',' = 0 by decide]
        exact ih 0 [] rfl i' hlen
    · rw [if_neg hc] at hi ⊢
      exact ih _ (current ++ [c]) (by rw [levelAfter_append, hlev]; rfl) i hi

/-- C5 (confirmed): a comma splits a brace group's content only at brace
level 0.  Three parts pin this down: rejoining the alternatives with commas
restores the original inner string (nothing is lost or reordered); every
separator the split consumed sits at running brace level 0 of the whole
content (the level after scanning any proper prefix of rejoined
alternatives is 0), so a comma enclosed in a deeper group is never used as
a separator; and no returned alternative retains a level-0 comma of its
own scan — deeper commas stay inside the alternative text. -/
theorem c5_comma_split_depth_zero (s : List Char) :
    joinComma (splitCommaSafe s) = s ∧
    (∀ p ∈ splitCommaSafe s, hasTopCommaFrom 0 p = false) ∧
    ∀ i, i + 1 < (splitCommaSafe s).length →
      levelAfter 0 (joinComma (List.take (i + 1) (splitCommaSafe s))) = 0 := by
  refine ⟨?_, ?_, ?_⟩
  · simpa using joinComma_sccGo s 0 []
  · exact sccGo_no_top_comma s 0 [] rfl rfl
  · exact sccGo_prefix_level s 0 [] rfl

theorem c5_comma_split_depth_zero_witness :
    joinComma (splitCommaSafe "a,\x7bb,c\x7d".data) = "a,\x7bb,c\x7d".data ∧
    ("\x7bb,c\x7d".data ∈ splitCommaSafe "a,\x7bb,c\x7d".data ∧
      hasTopCommaFrom 0 "\x7bb,c\x7d".data = false) ∧
    (0 + 1 < (splitCommaSafe "a,\x7bb,c\x7d".data).length ∧
      levelAfter 0 (joinComma (List.take (0 + 1) (splitCommaSafe "a,\x7bb,c\x7d".data))) = 0) :=
  ⟨(c5_comma_split_depth_zero "a,\x7bb,c\x7d".data).1,
   ⟨by decide,
    (c5_comma_split_depth_zero "a,\x7bb,c\x7d".data).2.1 "\x7bb,c\x7d".data (by decide)⟩,
   by decide,
   (c5_comma_split_depth_zero "a,\x7bb,c\x7d".data).2.2 0 (by decide)⟩

theorem sccGo_no_comma (rest : List Char) :
    ∀ level current, ',' ∉ rest → sccGo level current rest = [current ++ rest] := by
  induction rest with
  | nil => intro level current _; simp [sccGo]
  | cons c rest ih =>
    intro level current h
    simp only [List.mem_cons, not_or] at h
    rw [sccGo, if_neg (fun hc => h.1 hc.1.symm), ih _ _ h.2]
    simp

/-- C8 (confirmed): a brace group whose content contains no comma is
treated as one alternative equal to the whole content: `expandBraces` on
the pattern consisting of `abc` in braces yields exactly `["abc"]`, and
`splitCommaSafe` on comma-free content returns the one-element list
containing that content. -/
theorem c8_single_alternative :
    expandBracesS "\x7babc\x7d" = .ok ["abc"] ∧
    ∀ s : List Char, ',' ∉ s → splitCommaSafe s = [s] := by
  refine ⟨rfl, fun s h => ?_⟩
  simpa [splitCommaSafe] using sccGo_no_comma s 0 [] h

theorem c8_single_alternative_witness :
    expandBracesS "\x7babc\x7d" = .ok ["abc"] ∧
    ',' ∉ "xyz".data ∧ splitCommaSafe "xyz".data = ["xyz".data] :=
  ⟨c8_single_alternative.1, by decide, c8_single_alternative.2 "xyz".data (by decide)⟩

theorem dedupFirst_eq_firstDedup_filter (l : List (List Char)) :
    ∀ seen, dedupFirst seen l = (firstDedup l).filter fun w => w ∉ seen := by
  induction l with
  | nil => intro seen; rfl
  | cons v rest ih =>
    intro seen
    rw [dedupFirst, firstDedup]
    by_cases hv : v ∈ seen
    · rw [if_pos hv, ih seen, List.filter_cons]
      simp only [decide_eq_true_eq, hv, not_true_eq_false, if_false, List.filter_filter]
      refine List.filter_congr fun a _ => ?_
      by_cases ha : a ∈ seen
      · simp [ha]
      · simp [ha]
        intro heq
        exact ha (heq ▸ hv)
    · rw [if_neg hv, ih (v :: seen), List.filter_cons]
      simp only [decide_eq_true_eq, hv, not_false_eq_true, if_true, List.filter_filter]
      refine congrArg (v :: ·) (List.filter_congr fun a _ => ?_)
      by_cases ha : a ∈ seen <;> by_cases hav : a = v <;>
        simp [ha, hav, List.mem_cons]

theorem dedupFirst_eq_firstDedup (l : List (List Char)) :
    dedupFirst [] l = firstDedup l := by
  rw [dedupFirst_eq_firstDedup_filter l []]
  exact List.filter_eq_self.mpr (by simp)

theorem firstDedup_nodup (l : List (List Char)) : (firstDedup l).Nodup := by
  induction l with
  | nil => exact List.nodup_nil
  | cons v rest ih =>
    rw [firstDedup]
    refine List.nodup_cons.mpr ⟨?_, ih.filter _⟩
    intro hmem
    have := List.of_mem_filter hmem
    simp at this

theorem firstDedup_sublist (l : List (List Char)) : List.Sublist (firstDedup l) l := by
  induction l with
  | nil => simp [firstDedup]
  | cons v rest ih =>
    rw [firstDedup]
    exact List.Sublist.cons₂ v ((List.filter_sublist _).trans ih)

theorem mem_firstDedup {l : List (List Char)} {w : List Char} :
    w ∈ firstDedup l ↔ w ∈ l := by
  induction l with
  | nil => simp [firstDedup]
  | cons v rest ih =>
    rw [firstDedup]
    simp only [List.mem_cons, List.mem_filter, decide_eq_true_eq]
    constructor
    · rintro (rfl | ⟨hw, _⟩)
      · exact Or.inl rfl
      · exact Or.inr (ih.mp hw)
    · rintro (rfl | hw)
      · exact Or.inl rfl
      · by_cases hv : w = v
        · exact Or.inl hv
        · exact Or.inr ⟨ih.mpr hw, hv⟩

/-- C4 (confirmed): for every input whose raw expansion succeeds, the
sequence yielded by `expandBraces` is the raw generation sequence with
every value kept at its first occurrence only: it equals `firstDedup raw`,
contains no string twice, is a subsequence of the raw sequence (so all
strings keep their relative generation order), and loses no value. -/
theorem c4_dedup_first_occurrence (s : List Char) (raw : List (List Char))
    (h : expand s = .ok raw) :
    expandBraces s = .ok (firstDedup raw) ∧ (firstDedup raw).Nodup ∧
    List.Sublist (firstDedup raw) raw ∧ ∀ v, v ∈ firstDedup raw ↔ v ∈ raw := by
  refine ⟨?_, firstDedup_nodup raw, firstDedup_sublist raw, fun v => mem_firstDedup⟩
  rw [expandBraces, h]
  exact congrArg Except.ok (dedupFirst_eq_firstDedup raw)

theorem c4_dedup_first_occurrence_witness :
    expand "\x7ba,a\x7d".data = .ok [['a'], ['a']] ∧
    (expandBraces "\x7ba,a\x7d".data = .ok (firstDedup [['a'], ['a']]) ∧
      (firstDedup [['a'], ['a']]).Nodup ∧
      List.Sublist (firstDedup [['a'], ['a']]) [['a'], ['a']] ∧
      ∀ v, v ∈ firstDedup [['a'], ['a']] ↔ v ∈ [['a'], ['a']]) :=
  ⟨rfl, c4_dedup_first_occurrence "\x7ba,a\x7d".data [['a'], ['a']] rfl⟩

/-- C1 (code_bug): the claim (and the function's own docstring, lines
77-79) says the thumbnail pattern expands to png / jpeg / jpg with no brace
left in any output, but `expand` only recurses on the suffix after a brace
group (line 110) and never re-expands the chosen alternative itself, so the
nested group inside the second alternative survives verbatim: the code
yields exactly png and the literal `jp` alternative with its inner braces
intact. -/
theorem c1_nested_alternative_unexpanded :
    expandBracesS "thumbnail.\x7bpng,jp\x7be,\x7dg\x7d" =
      .ok ["thumbnail.png", "thumbnail.jp\x7be,\x7dg"] := rfl

/-- C2 counterexample: the claim says `a,b` followed by a stray closing
brace raises the malformed-pattern error, but the code scans only for `\x7b`
(line 89) and treats a stray `\x7d` as literal text: the call succeeds and
yields the input unchanged. -/
theorem c2_counterexample_stray_close_no_error :
    expandBracesS "a,b\x7d" = .ok ["a,b\x7d"] ∧
    ∀ e : String, expandBracesS "a,b\x7d" ≠ .error e := by
  refine ⟨rfl, fun e h => ?_⟩
  rw [show expandBracesS "a,b\x7d" = .ok ["a,b\x7d"] from rfl] at h
  cases h

/-- C2 (amended, corrected): `expandBraces` fails with the
malformed-pattern error when an opening brace has no matching close
(`'\x7ba,b'`), returning no partial output; but a closing brace with no
opener (`'a,b\x7d'`) is not an error: the stray close is passed through as a
literal character and the call succeeds with the input unchanged. -/
theorem c2_amended_unbalanced_open_only :
    expandBracesS "\x7ba,b" = .error "Unbalanced braces" ∧
    expandBracesS "a,b\x7d" = .ok ["a,b\x7d"] := ⟨rfl, rfl⟩

/-- C3 (confirmed): the Downloads/Pictures × jpg/gif/png pattern expands to
exactly the six combinations, each exactly once, in the stated order. -/
theorem c3_downloads_pictures_six :
    expandBracesS "~/\x7bDownloads,Pictures\x7d/*.\x7bjpg,gif,png\x7d" =
      .ok ["~/Downloads/*.jpg", "~/Downloads/*.gif", "~/Downloads/*.png",
           "~/Pictures/*.jpg", "~/Pictures/*.gif", "~/Pictures/*.png"] := rfl

/-- C7 (confirmed): `expandBraces` is deterministic and stateless: the
embedding is a pure function of the input string alone (the generator's
seen-set is created afresh inside each call, line 143, and the function
reads no state outside its argument), so two separate calls on the same
string yield identical sequences. -/
theorem c7_deterministic (s : String) :
    expandBracesS s = expandBracesS s ∧
    expandBraces s.data = (expand s.data).map (dedupFirst []) :=
  ⟨rfl, rfl⟩

end Katas

namespace Css

theorem element_spec (s : CssSelector) (v : String) :
    element s v =
      if 1 < s.order then .error orderMsg
      else if s.usedElement then .error uniqueMsg
      else .ok { s with order := 1, usedElement := true, result := s.result ++ v } := by
  by_cases h1 : 1 < s.order <;> by_cases h2 : s.usedElement <;>
    simp [element, checkOrder, checkUnique, getUsed, setUsed, h1, h2]

theorem id_spec (s : CssSelector) (v : String) :
    id s v =
      if 2 < s.order then .error orderMsg
      else if s.usedId then .error uniqueMsg
      else .ok { s with order := 2, usedId := true, result := s.result ++ "#" ++ v } := by
  by_cases h1 : 2 < s.order <;> by_cases h2 : s.usedId <;>
    simp [id, checkOrder, checkUnique, getUsed, setUsed, h1, h2]

theorem classSel_spec (s : CssSelector) (v : String) :
    classSel s v =
      if 3 < s.order then .error orderMsg
      else .ok { s with order := 3, result := s.result ++ "." ++ v } := by
  by_cases h1 : 3 < s.order <;> simp [classSel, checkOrder, h1]

theorem attr_spec (s : CssSelector) (v : String) :
    attr s v =
      if 4 < s.order then .error orderMsg
      else .ok { s with order := 4, result := s.result ++ "[" ++ v ++ "]" } := by
  by_cases h1 : 4 < s.order <;> simp [attr, checkOrder, h1]

theorem pseudoClass_spec (s : CssSelector) (v : String) :
    pseudoClass s v =
      if 5 < s.order then .error orderMsg
      else .ok { s with order := 5, result := s.result ++ ":" ++ v } := by
  by_cases h1 : 5 < s.order <;> simp [pseudoClass, checkOrder, h1]

theorem pseudoElement_spec (s : CssSelector) (v : String) :
    pseudoElement s v =
      if 6 < s.order then .error orderMsg
      else if s.usedPseudoElement then .error uniqueMsg
      else .ok { s with order := 6, usedPseudoElement := true, result := s.result ++ "::" ++ v } := by
  by_cases h1 : 6 < s.order <;> by_cases h2 : s.usedPseudoElement <;>
    simp [pseudoElement, checkOrder, checkUnique, getUsed, setUsed, h1, h2]

/-- Invariant of a successful chain run: the one-shot flags record exactly
which one-shot methods the chain has invoked, and the order category never
exceeds 6. -/
theorem runChain_invariant :
    ∀ ps : List Part, ∀ s s' : CssSelector, runChain s ps = .ok s' →
      s'.usedElement = (s.usedElement || containsElement ps) ∧
      s'.usedId = (s.usedId || containsId ps) ∧
      s'.usedPseudoElement = (s.usedPseudoElement || containsPseudoElement ps) ∧
      (s.order ≤ 6 → s'.order ≤ 6) := by
  intro ps
  induction ps with
  | nil =>
    intro s s' h
    cases h
    simp [containsElement, containsId, containsPseudoElement]
  | cons p ps ih =>
    intro s s' h
    rw [runChain] at h
    cases happ : applyPart s p with
    | error e => rw [happ] at h; cases h
    | ok s1 =>
      rw [happ] at h
      obtain ⟨hE, hI, hP, hO⟩ := ih s1 s' h
      cases p with
      | element v =>
        rw [applyPart, element_spec] at happ
        split_ifs at happ with h1 h2
        cases happ
        exact ⟨by simpa [containsElement] using hE, by simpa [containsId] using hI,
                 by simpa [containsPseudoElement] using hP, fun _ => hO (by norm_num)⟩
      | id v =>
        rw [applyPart, id_spec] at happ
        split_ifs at happ with h1 h2
        cases happ
        exact ⟨by simpa [containsElement] using hE, by simpa [containsId] using hI,
                 by simpa [containsPseudoElement] using hP, fun _ => hO (by norm_num)⟩
      | classSel v =>
        rw [applyPart, classSel_spec] at happ
        split_ifs at happ with h1
        cases happ
        exact ⟨by simpa [containsElement] using hE, by simpa [containsId] using hI,
                 by simpa [containsPseudoElement] using hP, fun _ => hO (by norm_num)⟩
      | attr v =>
        rw [applyPart, attr_spec] at happ
        split_ifs at happ with h1
        cases happ
        exact ⟨by simpa [containsElement] using hE, by simpa [containsId] using hI,
                 by simpa [containsPseudoElement] using hP, fun _ => hO (by norm_num)⟩
      | pseudoClass v =>
        rw [applyPart, pseudoClass_spec] at happ
        split_ifs at happ with h1
        cases happ
        exact ⟨by simpa [containsElement] using hE, by simpa [containsId] using hI,
                 by simpa [containsPseudoElement] using hP, fun _ => hO (by norm_num)⟩
      | pseudoElement v =>
        rw [applyPart, pseudoElement_spec] at happ
        split_ifs at happ with h1 h2
        cases happ
        exact ⟨by simpa [containsElement] using hE, by simpa [containsId] using hI,
                 by simpa [containsPseudoElement] using hP, fun _ => hO (by norm_num)⟩

theorem runClasses_ok :
    ∀ vs : List String, ∀ s : CssSelector, s.order ≤ 3 →
      ∃ s', runChain s (vs.map Part.classSel) = .ok s' := by
  intro vs
  induction vs with
  | nil => intro s _; exact ⟨s, rfl⟩
  | cons v vs ih =>
    intro s hs
    simp only [List.map_cons, runChain, applyPart, classSel_spec,
      if_neg (show ¬ 3 < s.order by omega)]
    exact ih _ (le_refl 3)

theorem runAttrs_ok :
    ∀ vs : List String, ∀ s : CssSelector, s.order ≤ 4 →
      ∃ s', runChain s (vs.map Part.attr) = .ok s' := by
  intro vs
  induction vs with
  | nil => intro s _; exact ⟨s, rfl⟩
  | cons v vs ih =>
    intro s hs
    simp only [List.map_cons, runChain, applyPart, attr_spec,
      if_neg (show ¬ 4 < s.order by omega)]
    exact ih _ (le_refl 4)

/-- C10 counterexample: in the chain element, id, element the second
`element` call runs `checkOrder` before `checkUnique` (line 151 before
line 152), and since the chain's order category has advanced to 2 the
error thrown carries the ordering message, not the claimed uniqueness
message; likewise `class` after `attr` throws the ordering error, so class
and attr are not repeatable at arbitrary chain positions. -/
theorem c10_counterexample_second_element_order_error :
    runChain initSelector [Part.element "a", Part.id "b", Part.element "c"] = .error orderMsg ∧
    runChain initSelector [Part.attr "x", Part.classSel "y"] = .error orderMsg ∧
    orderMsg ≠ uniqueMsg :=
  ⟨rfl, rfl, by decide⟩

/-- C10 (amended, corrected): in a selector chain built from
`cssSelectorBuilder`, invoking `element`, `id` or `pseudoElement` a second
time always throws an Error, but the message depends on the chain's current
order category: it is the uniqueness message 'Element, id and
pseudo-element should not occur more then one time inside the selector'
exactly when the chain's category has not advanced past the repeated
part's own category (always the case for `pseudoElement`), and the
ordering message otherwise; `class` and `attr` may be invoked any number
of times without error provided the chain's category has not advanced past
theirs. -/
theorem c10_amended_repeat_one_shot (ps : List Part) (s : CssSelector)
    (hrun : runChain initSelector ps = .ok s) :
    (∀ v, containsElement ps = true → s.order ≤ 1 → element s v = .error uniqueMsg) ∧
    (∀ v, containsElement ps = true → 1 < s.order → element s v = .error orderMsg) ∧
    (∀ v, containsId ps = true → s.order ≤ 2 → id s v = .error uniqueMsg) ∧
    (∀ v, containsId ps = true → 2 < s.order → id s v = .error orderMsg) ∧
    (∀ v, containsPseudoElement ps = true → pseudoElement s v = .error uniqueMsg) ∧
    (∀ vs : List String, s.order ≤ 3 → ∃ s', runChain s (vs.map Part.classSel) = .ok s') ∧
    (∀ vs : List String, s.order ≤ 4 → ∃ s', runChain s (vs.map Part.attr) = .ok s') := by
  obtain ⟨hE, hI, hP, hO⟩ := runChain_invariant ps initSelector s hrun
  simp only [initSelector, Bool.false_or] at hE hI hP
  have hO6 : s.order ≤ 6 := hO (by decide)
  refine ⟨?_, ?_, ?_, ?_, ?_, fun vs h => runClasses_ok vs s h, fun vs h => runAttrs_ok vs s h⟩
  · intro v hc hord
    rw [element_spec, if_neg (by omega), if_pos (by rw [hE]; exact hc)]
  · intro v _ hord
    rw [element_spec, if_pos hord]
  · intro v hc hord
    rw [id_spec, if_neg (by omega), if_pos (by rw [hI]; exact hc)]
  · intro v _ hord
    rw [id_spec, if_pos hord]
  · intro v hc
    rw [pseudoElement_spec, if_neg (by omega), if_pos (by rw [hP]; exact hc)]

theorem c10_amended_repeat_one_shot_witness :
    runChain initSelector [Part.element "a"] = .ok ⟨"a", 1, true, false, false⟩ ∧
    element ⟨"a", 1, true, false, false⟩ "b" = .error uniqueMsg ∧
    ∃ s', runChain ⟨"a", 1, true, false, false⟩
      (["c", "d"].map Part.classSel) = .ok s' :=
  ⟨rfl,
   (c10_amended_repeat_one_shot [Part.element "a"] ⟨"a", 1, true, false, false⟩ rfl).1
     "b" rfl (by norm_num),
   (c10_amended_repeat_one_shot [Part.element "a"] ⟨"a", 1, true, false, false⟩
     rfl).2.2.2.2.2.1 ["c", "d"] (by norm_num)⟩

end Css

namespace ZigZag

theorem T_succ (n d : Nat) : T n (d + 1) = T n d + diagLen n d := rfl

theorem T_below (n : Nat) : ∀ d, d ≤ n → 2 * T n d = d * (d + 1) := by
  intro d
  induction d with
  | zero => intro _; rfl
  | succ d ih =>
    intro hd
    have hlen : diagLen n d = d + 1 := by unfold diagLen; omega
    calc 2 * T n (d + 1) = 2 * T n d + 2 * (d + 1) := by rw [T_succ, hlen]; ring
      _ = d * (d + 1) + 2 * (d + 1) := by rw [ih (by omega)]
      _ = (d + 1) * (d + 1 + 1) := by ring

theorem T_above (n : Nat) (h1 : 1 ≤ n) :
    ∀ d, n ≤ d → d ≤ 2 * n - 1 →
      2 * T n d + (2 * n - d) * (2 * n - d - 1) = 2 * (n * n) := by
  intro d
  induction d with
  | zero => intro h _; omega
  | succ d ih =>
    intro hnd hd2
    by_cases hcase : n = d + 1
    · subst hcase
      have hb := T_below (d + 1) (d + 1) (le_refl _)
      have e1 : 2 * (d + 1) - (d + 1) = d + 1 := by omega
      rw [e1]
      have e2 : d + 1 - 1 = d := rfl
      rw [e2, hb]
      ring
    · have ihd := ih (by omega) (by omega)
      have hlen : diagLen n d = 2 * n - 1 - d := by unfold diagLen; omega
      rw [T_succ, hlen]
      obtain ⟨C, hC⟩ : ∃ C, 2 * n - d = C + 2 := ⟨2 * n - d - 2, by omega⟩
      have e1 : 2 * n - 1 - d = C + 1 := by omega
      have e2 : 2 * n - (d + 1) = C + 1 := by omega
      have e3 : 2 * n - (d + 1) - 1 = C := by omega
      rw [e1, e2]
      have e5 : C + 1 - 1 = C := rfl
      rw [e5]
      rw [hC] at ihd
      have e4 : C + 2 - 1 = C + 1 := rfl
      rw [e4] at ihd
      zify at ihd ⊢
      linear_combination ihd

theorem T_pen (n : Nat) (h1 : 1 ≤ n) : T n (2 * n - 2) = n * n - 1 := by
  rcases Nat.lt_or_ge n 2 with h | h
  · have hn : n = 1 := by omega
    subst hn
    rfl
  · have ha := T_above n h1 (2 * n - 2) (by omega) (by omega)
    have e1 : 2 * n - (2 * n - 2) = 2 := by omega
    rw [e1] at ha
    norm_num at ha
    omega

theorem T_top (n : Nat) (h1 : 1 ≤ n) : T n (2 * n - 1) = n * n := by
  have e : 2 * n - 1 = (2 * n - 2) + 1 := by omega
  rw [e, T_succ, T_pen n h1]
  have hlen : diagLen n (2 * n - 2) = 1 := by unfold diagLen; omega
  rw [hlen]
  have hpos : 0 < n * n := Nat.mul_pos h1 h1
  omega

theorem T_mono (n : Nat) : ∀ d d', d ≤ d' → T n d ≤ T n d' := by
  intro d d' h
  induction d' with
  | zero => simp [Nat.le_zero.mp h]
  | succ e ih =>
    by_cases hd : d = e + 1
    · exact hd ▸ le_refl _
    · exact le_trans (ih (by omega)) (by rw [T_succ]; omega)

theorem offset_lt_diagLen (n i j : Nat) (hi : i < n) (hj : j < n) :
    offset n (i, j) < diagLen n (i + j) := by
  simp only [offset, diagLen]
  split_ifs <;> omega

theorem rank_lt (n : Nat) (h1 : 1 ≤ n) {p : Nat × Nat} (hp : inGrid n p) :
    rank n p < n * n := by
  obtain ⟨i, j⟩ := p
  obtain ⟨hi, hj⟩ := hp
  have hoff := offset_lt_diagLen n i j hi hj
  have h4 : T n (i + j + 1) ≤ T n (2 * n - 1) := T_mono n _ _ (by omega)
  rw [T_top n h1] at h4
  have h3 : T n (i + j + 1) = T n (i + j) + diagLen n (i + j) := T_succ n (i + j)
  show T n (i + j) + offset n (i, j) < n * n
  omega

theorem rank_corner (n : Nat) (h1 : 1 ≤ n) : rank n (n - 1, n - 1) = n * n - 1 := by
  show T n ((n - 1) + (n - 1)) + offset n (n - 1, n - 1) = n * n - 1
  have hoff : offset n (n - 1, n - 1) = 0 := by
    simp only [offset]
    split_ifs with hpar
    · omega
    · omega
  have e : (n - 1) + (n - 1) = 2 * n - 2 := by omega
  rw [e, hoff, T_pen n h1]
  omega

theorem step_even_mid (n i j : Nat) (hpar : (i + j) % 2 = 0) (hjn : j + 1 < n) (hi0 : 0 < i) :
    zigzagStep n (i, j) = (i - 1, j + 1) := by
  simp only [zigzagStep]
  rw [if_pos hpar, if_pos hjn, if_pos hi0]

theorem step_even_top (n i j : Nat) (hpar : (i + j) % 2 = 0) (hjn : j + 1 < n) (hi0 : i = 0) :
    zigzagStep n (i, j) = (i, j + 1) := by
  simp only [zigzagStep]
  rw [if_pos hpar, if_pos hjn, if_neg (by omega)]

theorem step_even_edge (n i j : Nat) (hpar : (i + j) % 2 = 0) (hjn : ¬ j + 1 < n) :
    zigzagStep n (i, j) = (i + 1, j) := by
  simp only [zigzagStep]
  rw [if_pos hpar, if_neg hjn, if_pos (by omega)]
  norm_num

theorem step_odd_mid (n i j : Nat) (hpar : ¬ (i + j) % 2 = 0) (hin : i + 1 < n) (hj0 : 0 < j) :
    zigzagStep n (i, j) = (i + 1, j - 1) := by
  simp only [zigzagStep]
  rw [if_neg hpar, if_pos hin, if_pos hj0]

theorem step_odd_left (n i j : Nat) (hpar : ¬ (i + j) % 2 = 0) (hin : i + 1 < n) (hj0 : j = 0) :
    zigzagStep n (i, j) = (i + 1, j) := by
  simp only [zigzagStep]
  rw [if_neg hpar, if_pos hin, if_neg (by omega)]

theorem step_odd_edge (n i j : Nat) (hpar : ¬ (i + j) % 2 = 0) (hin : ¬ i + 1 < n) :
    zigzagStep n (i, j) = (i, j + 1) := by
  simp only [zigzagStep]
  rw [if_neg hpar, if_neg hin, if_pos (by omega)]
  norm_num

end ZigZag

namespace ZigZag

set_option maxHeartbeats 1000000 in
/-- The heart of the zigzag argument: away from the bottom-right corner the
cursor update keeps the cursor in the grid and advances its zigzag rank by
exactly one. -/
theorem step_spec (n i j : Nat) (h1 : 1 ≤ n) (hi : i < n) (hj : j < n)
    (hne : ¬(i = n - 1 ∧ j = n - 1)) :
    inGrid n (zigzagStep n (i, j)) ∧ rank n (zigzagStep n (i, j)) = rank n (i, j) + 1 := by
  by_cases hpar : (i + j) % 2 = 0
  · by_cases hjn : j + 1 < n
    · by_cases hi0 : 0 < i
      · rw [step_even_mid n i j hpar hjn hi0]
        have ed : i - 1 + (j + 1) = i + j := by omega
        refine ⟨⟨by omega, by omega⟩, ?_⟩
        simp only [rank, offset, ed]
        split_ifs <;> omega
      · have hi0' : i = 0 := by omega
        rw [step_even_top n i j hpar hjn hi0']
        subst hi0'
        refine ⟨⟨by omega, by omega⟩, ?_⟩
        simp only [rank, offset]
        have e1 : 0 + (j + 1) = j + 1 := by omega
        have e2 : 0 + j = j := by omega
        simp only [e1, e2]
        rw [T_succ n j]
        unfold diagLen
        split_ifs <;> omega
    · rw [step_even_edge n i j hpar hjn]
      have hij : ¬ i = n - 1 := fun h => hne ⟨h, by omega⟩
      refine ⟨⟨by omega, by omega⟩, ?_⟩
      simp only [rank, offset]
      have e1 : i + 1 + j = (i + j) + 1 := by omega
      simp only [e1]
      rw [T_succ n (i + j)]
      unfold diagLen
      split_ifs <;> omega
  · by_cases hin : i + 1 < n
    · by_cases hj0 : 0 < j
      · rw [step_odd_mid n i j hpar hin hj0]
        have ed : i + 1 + (j - 1) = i + j := by omega
        refine ⟨⟨by omega, by omega⟩, ?_⟩
        simp only [rank, offset, ed]
        split_ifs <;> omega
      · have hj0' : j = 0 := by omega
        rw [step_odd_left n i j hpar hin hj0']
        subst hj0'
        refine ⟨⟨by omega, by omega⟩, ?_⟩
        simp only [rank, offset]
        have e1 : i + 1 + 0 = (i + 0) + 1 := by omega
        simp only [e1]
        rw [T_succ n (i + 0)]
        unfold diagLen
        split_ifs <;> omega
    · rw [step_odd_edge n i j hpar hin]
      have hjj : ¬ j = n - 1 := fun h => hne ⟨by omega, h⟩
      refine ⟨⟨by omega, by omega⟩, ?_⟩
      simp only [rank, offset]
      have e1 : i + (j + 1) = (i + j) + 1 := by omega
      simp only [e1]
      rw [T_succ n (i + j)]
      unfold diagLen
      split_ifs <;> omega

/-- Walk invariant: for the first `n * n` steps the cursor stays in the
grid and its rank equals the step count. -/
theorem walkPos_spec (n : Nat) (h1 : 1 ≤ n) :
    ∀ k, k < n * n → inGrid n (walkPos n k) ∧ rank n (walkPos n k) = k := by
  intro k
  induction k with
  | zero =>
    intro _
    refine ⟨⟨h1, h1⟩, ?_⟩
    simp only [walkPos, rank, offset]
    norm_num [T]
  | succ k ih =>
    intro hk
    obtain ⟨hin, hrk⟩ := ih (by omega)
    rcases hwp : walkPos n k with ⟨i, j⟩
    rw [hwp] at hin hrk
    have hne : ¬(i = n - 1 ∧ j = n - 1) := by
      rintro ⟨rfl, rfl⟩
      rw [rank_corner n h1] at hrk
      have := Nat.mul_pos h1 h1
      omega
    obtain ⟨hin', hrk'⟩ := step_spec n i j h1 hin.1 hin.2 hne
    constructor
    · show inGrid n (zigzagStep n (walkPos n k))
      rw [hwp]; exact hin'
    · show rank n (zigzagStep n (walkPos n k)) = k + 1
      rw [hwp, hrk', hrk]

theorem walkPos_inj (n : Nat) (h1 : 1 ≤ n) {a b : Nat} (ha : a < n * n) (hb : b < n * n)
    (he : walkPos n a = walkPos n b) : a = b := by
  have h2 := (walkPos_spec n h1 a ha).2
  have h3 := (walkPos_spec n h1 b hb).2
  rw [he] at h2
  omega

theorem walkPos_surj (n : Nat) (h1 : 1 ≤ n) (p : Nat × Nat) (hp : inGrid n p) :
    ∃ k, k < n * n ∧ walkPos n k = p := by
  have himg : (Finset.range (n * n)).image (walkPos n) = Finset.range n ×ˢ Finset.range n := by
    apply Finset.eq_of_subset_of_card_le
    · intro q hq
      simp only [Finset.mem_image, Finset.mem_range] at hq
      obtain ⟨k, hk, rfl⟩ := hq
      have hg := (walkPos_spec n h1 k hk).1
      rcases hq2 : walkPos n k with ⟨i, j⟩
      rw [hq2] at hg
      simp only [Finset.mem_product, Finset.mem_range]
      exact ⟨hg.1, hg.2⟩
    · have hinj : Set.InjOn (walkPos n) (Finset.range (n * n)) := by
        intro a ha b hb he
        simp only [Finset.coe_range, Set.mem_Iio] at ha hb
        exact walkPos_inj n h1 ha hb he
      rw [Finset.card_image_of_injOn hinj, Finset.card_product, Finset.card_range,
        Finset.card_range]
  have hmem : p ∈ (Finset.range (n * n)).image (walkPos n) := by
    rw [himg]
    rcases p with ⟨i, j⟩
    simp only [Finset.mem_product, Finset.mem_range]
    exact ⟨hp.1, hp.2⟩
  simp only [Finset.mem_image, Finset.mem_range] at hmem
  obtain ⟨k, hk, hke⟩ := hmem
  exact ⟨k, hk, hke⟩

theorem rank_injOn (n : Nat) (h1 : 1 ≤ n) {p q : Nat × Nat}
    (hp : inGrid n p) (hq : inGrid n q) (he : rank n p = rank n q) : p = q := by
  obtain ⟨k, hk, rfl⟩ := walkPos_surj n h1 p hp
  obtain ⟨k', hk', rfl⟩ := walkPos_surj n h1 q hq
  have e1 := (walkPos_spec n h1 k hk).2
  have e2 := (walkPos_spec n h1 k' hk').2
  have : k = k' := by omega
  rw [this]

end ZigZag

namespace ZigZag

theorem set_oob {α : Type _} : ∀ (l : List α) (i : Nat) (a : α), l.length ≤ i → l.set i a = l := by
  intro l
  induction l with
  | nil => intro i a _; rfl
  | cons x xs ih =>
    intro i a h
    cases i with
    | zero => simp at h
    | succ i => simp only [List.set_cons_succ]; rw [ih i a (by simpa using h)]

theorem getD_set_self {α : Type _} : ∀ (l : List α) (i : Nat) (a d : α), i < l.length →
    (l.set i a).getD i d = a := by
  intro l
  induction l with
  | nil => intro i a d h; simp at h
  | cons x xs ih =>
    intro i a d h
    cases i with
    | zero => rfl
    | succ i => exact ih i a d (by simpa using h)

theorem getD_set_ne {α : Type _} : ∀ (l : List α) (i j : Nat) (a d : α), j ≠ i →
    (l.set i a).getD j d = l.getD j d := by
  intro l
  induction l with
  | nil => intro i j a d _; rfl
  | cons x xs ih =>
    intro i j a d h
    cases i with
    | zero =>
      cases j with
      | zero => exact absurd rfl h
      | succ j => rfl
    | succ i =>
      cases j with
      | zero => rfl
      | succ j => exact ih i j a d (by omega)

theorem getD_replicate {α : Type _} : ∀ (m i : Nat) (a d : α), i < m →
    (List.replicate m a).getD i d = a := by
  intro m
  induction m with
  | zero => intro i a d h; omega
  | succ m ih =>
    intro i a d h
    cases i with
    | zero => rfl
    | succ i => exact ih i a d (by omega)

theorem getMat_setMat_self {n : Nat} {m : List (List Nat)} {i j v : Nat} (hs : Shaped n m)
    (hi : i < n) (hj : j < n) : getMat (setMat m i j v) i j = v := by
  unfold getMat setMat
  have h1 : (m.set i ((m.getD i []).set j v)).getD i [] = (m.getD i []).set j v :=
    getD_set_self m i _ [] (by rw [hs.1]; exact hi)
  rw [h1, getD_set_self _ j v 0 (by rw [hs.2 i hi]; exact hj)]

theorem getMat_setMat_ne {m : List (List Nat)} {i j i' j' v : Nat}
    (h : ¬(i' = i ∧ j' = j)) : getMat (setMat m i j v) i' j' = getMat m i' j' := by
  unfold getMat setMat
  by_cases hii : i' = i
  · subst hii
    have hjj : j' ≠ j := fun hc => h ⟨rfl, hc⟩
    by_cases hlen : i' < m.length
    · rw [getD_set_self m i' _ [] hlen, getD_set_ne _ j j' v 0 hjj]
    · rw [set_oob m i' _ (by omega)]
  · rw [getD_set_ne m i i' _ [] hii]

theorem shaped_setMat {n : Nat} {m : List (List Nat)} (hs : Shaped n m) (i j v : Nat) :
    Shaped n (setMat m i j v) := by
  constructor
  · rw [setMat, List.length_set]; exact hs.1
  · intro i' hi'
    unfold setMat
    by_cases hii : i' = i
    · subst hii
      by_cases hlen : i' < m.length
      · rw [getD_set_self m i' _ [] hlen, List.length_set]
        exact hs.2 i' hi'
      · rw [set_oob m i' _ (by omega)]
        exact hs.2 i' hi'
    · rw [getD_set_ne m i i' _ [] hii]
      exact hs.2 i' hi'

theorem shaped_zigzagLoop {n : Nat} :
    ∀ fuel num p m, Shaped n m → Shaped n (zigzagLoop n fuel num p m) := by
  intro fuel
  induction fuel with
  | zero => intro num p m hs; exact hs
  | succ fuel ih =>
    intro num p m hs
    exact ih (num + 1) (zigzagStep n p) _ (shaped_setMat hs p.1 p.2 num)

theorem stepIter_last (n : Nat) : ∀ t p, stepIter n (t + 1) p = zigzagStep n (stepIter n t p) := by
  intro t
  induction t with
  | zero => intro p; rfl
  | succ t ih => intro p; exact ih (zigzagStep n p)

theorem walkPos_eq_stepIter (n : Nat) : ∀ k, walkPos n k = stepIter n k (0, 0) := by
  intro k
  induction k with
  | zero => rfl
  | succ k ih =>
    show zigzagStep n (walkPos n k) = stepIter n (k + 1) (0, 0)
    rw [ih, stepIter_last]

theorem zigzagLoop_untouched (n : Nat) :
    ∀ fuel num p m i j, (∀ t, t < fuel → stepIter n t p ≠ (i, j)) →
      getMat (zigzagLoop n fuel num p m) i j = getMat m i j := by
  intro fuel
  induction fuel with
  | zero => intro num p m i j _; rfl
  | succ fuel ih =>
    intro num p m i j h
    rw [zigzagLoop]
    rw [ih (num + 1) (zigzagStep n p) _ i j (fun t ht => h (t + 1) (by omega))]
    apply getMat_setMat_ne
    intro hc
    exact h 0 (by omega) (Prod.ext hc.1.symm hc.2.symm)

theorem zigzagLoop_written (n : Nat) :
    ∀ fuel t num p m, t < fuel →
      (∀ u, u < fuel → inGrid n (stepIter n u p)) →
      (∀ u u', u < fuel → u' < fuel → stepIter n u p = stepIter n u' p → u = u') →
      Shaped n m →
      getMat (zigzagLoop n fuel num p m) (stepIter n t p).1 (stepIter n t p).2 = num + t := by
  intro fuel
  induction fuel with
  | zero => intro t num p m ht; omega
  | succ fuel ih =>
    intro t num p m ht hgrid hinj hs
    rw [zigzagLoop]
    cases t with
    | zero =>
      show getMat (zigzagLoop n fuel (num + 1) (zigzagStep n p) (setMat m p.1 p.2 num))
        p.1 p.2 = num + 0
      rw [zigzagLoop_untouched n fuel (num + 1) (zigzagStep n p) _ p.1 p.2 ?_]
      · have hg : inGrid n p := hgrid 0 (by omega)
        rw [getMat_setMat_self hs hg.1 hg.2]
        omega
      · intro u hu hc
        have he : stepIter n (u + 1) p = stepIter n 0 p := by
          show stepIter n u (zigzagStep n p) = p
          rw [hc]
        have := hinj (u + 1) 0 (by omega) (by omega) he
        omega
    | succ t' =>
      have hrec := ih t' (num + 1) (zigzagStep n p) (setMat m p.1 p.2 num) (by omega)
        (fun u hu => hgrid (u + 1) (by omega))
        (fun u u' hu hu' he => by
          have := hinj (u + 1) (u' + 1) (by omega) (by omega) he
          omega)
        (shaped_setMat hs p.1 p.2 num)
      show getMat (zigzagLoop n fuel (num + 1) (zigzagStep n p) (setMat m p.1 p.2 num))
        (stepIter n t' (zigzagStep n p)).1 (stepIter n t' (zigzagStep n p)).2 = num + (t' + 1)
      rw [hrec]
      omega

theorem getMat_getZigZag (n : Nat) (h1 : 1 ≤ n) (i j : Nat) (hi : i < n) (hj : j < n) :
    getMat (getZigZagMatrix n) i j = rank n (i, j) := by
  obtain ⟨k, hk, hke⟩ := walkPos_surj n h1 (i, j) ⟨hi, hj⟩
  have hwr := (walkPos_spec n h1 k hk).2
  rw [hke] at hwr
  have hcell : stepIter n k (0, 0) = (i, j) := by rw [← walkPos_eq_stepIter, hke]
  have hfin := zigzagLoop_written n (n * n) k 0 (0, 0)
    (List.replicate n (List.replicate n 0)) hk
    (fun u hu => by rw [← walkPos_eq_stepIter]; exact (walkPos_spec n h1 u hu).1)
    (fun u u' hu hu' he => walkPos_inj n h1 hu hu'
      (by rw [walkPos_eq_stepIter, walkPos_eq_stepIter]; exact he))
    ⟨by rw [List.length_replicate], fun i' hi' => by
      rw [getD_replicate n i' (List.replicate n 0) [] hi', List.length_replicate]⟩
  rw [hcell] at hfin
  have e0 : 0 + k = k := by omega
  rw [e0] at hfin
  rw [hwr]
  exact hfin

end ZigZag

namespace ZigZag

theorem getD_eq_getElem {α : Type _} : ∀ (l : List α) (i : Nat) (d : α), ∀ h : i < l.length,
    l.getD i d = l[i] := by
  intro l
  induction l with
  | nil => intro i d h; simp at h
  | cons x xs ih =>
    intro i d h
    cases i with
    | zero => rfl
    | succ i => exact ih i d (by simpa using h)

/-- The finished matrix is exactly the closed-form rank table. -/
theorem getZigZagMatrix_eq_map (n : Nat) (h1 : 1 ≤ n) :
    getZigZagMatrix n =
      (List.range n).map fun i => (List.range n).map fun j => rank n (i, j) := by
  have hsh0 : Shaped n (List.replicate n (List.replicate n 0)) :=
    ⟨by rw [List.length_replicate], fun i' hi' => by
      rw [getD_replicate n i' (List.replicate n 0) [] hi', List.length_replicate]⟩
  have hs : Shaped n (getZigZagMatrix n) := shaped_zigzagLoop (n * n) 0 (0, 0) _ hsh0
  apply List.ext_getElem
  · rw [hs.1, List.length_map, List.length_range]
  · intro i hi1 hi2
    have hin : i < n := by rw [hs.1] at hi1; exact hi1
    have hrowlen : (getZigZagMatrix n)[i].length = n := by
      have h2 := hs.2 i hin
      rw [getD_eq_getElem _ i [] hi1] at h2
      exact h2
    rw [List.getElem_map, List.getElem_range]
    apply List.ext_getElem
    · rw [hrowlen, List.length_map, List.length_range]
    · intro j hj1 hj2
      have hjn : j < n := by rw [hrowlen] at hj1; exact hj1
      have hentry := getMat_getZigZag n h1 i j hin hjn
      unfold getMat at hentry
      rw [getD_eq_getElem _ i [] hi1] at hentry
      rw [getD_eq_getElem _ j 0 (by rw [hrowlen]; exact hjn)] at hentry
      rw [List.getElem_map, List.getElem_range]
      exact hentry

end ZigZag

/-- C9 (confirmed): for every n with 1 ≤ n, `getZigZagMatrix n` is an
n-by-n matrix whose entries, read off row by row, are a permutation of
0, 1, …, n*n - 1: every such integer appears exactly once. -/
theorem c9_zigzag_permutation (n : Nat) (h1 : 1 ≤ n) :
    ((ZigZag.getZigZagMatrix n).flatten).Perm (List.range (n * n)) := by
  open ZigZag in
  rw [ZigZag.getZigZagMatrix_eq_map n h1]
  apply List.perm_of_nodup_nodup_toFinset_eq
  · rw [List.nodup_flatten]
    constructor
    · intro l hl
      simp only [List.mem_map, List.mem_range] at hl
      obtain ⟨i, hi, rfl⟩ := hl
      refine List.Nodup.map_on ?_ (List.nodup_range n)
      intro x hx y hy he
      simp only [List.mem_range] at hx hy
      have hpair := @ZigZag.rank_injOn n h1 (i, x) (i, y) ⟨hi, hx⟩ ⟨hi, hy⟩ he
      exact congrArg Prod.snd hpair
    · rw [List.pairwise_map]
      refine List.Pairwise.imp_of_mem ?_ (List.pairwise_lt_range n)
      intro a b ha hb hab
      intro v hva hvb
      simp only [List.mem_map, List.mem_range] at hva hvb
      obtain ⟨x, hx, rfl⟩ := hva
      obtain ⟨y, hy, he⟩ := hvb
      simp only [List.mem_range] at ha hb
      have hpair := @ZigZag.rank_injOn n h1 (b, y) (a, x) ⟨hb, hy⟩ ⟨ha, hx⟩ he
      have : b = a := congrArg Prod.fst hpair
      omega
  · exact List.nodup_range (n * n)
  · apply Finset.ext
    intro v
    simp only [List.mem_toFinset, List.mem_flatten, List.mem_map, List.mem_range]
    constructor
    · rintro ⟨l, ⟨i, hi, rfl⟩, hv⟩
      simp only [List.mem_map, List.mem_range] at hv
      obtain ⟨j, hj, rfl⟩ := hv
      exact ZigZag.rank_lt n h1 ⟨hi, hj⟩
    · intro hv
      have hg := (ZigZag.walkPos_spec n h1 v hv).1
      have hr := (ZigZag.walkPos_spec n h1 v hv).2
      rcases hp : ZigZag.walkPos n v with ⟨i, j⟩
      rw [hp] at hg hr
      refine ⟨(List.range n).map fun j' => ZigZag.rank n (i, j'), ⟨i, hg.1, rfl⟩, ?_⟩
      simp only [List.mem_map, List.mem_range]
      exact ⟨j, hg.2, hr⟩

theorem c9_zigzag_permutation_witness :
    1 ≤ 4 ∧ ((ZigZag.getZigZagMatrix 4).flatten).Perm (List.range (4 * 4)) :=
  ⟨by decide, c9_zigzag_permutation 4 (by decide)⟩
